import Mathlib

/-!
Verification of the CropHarvest feature-engineering pipeline
(`cropharvest/engineer.py`).

Shallow embedding conventions:
* numpy arrays of floats are embedded as `List ℚ` / nested lists, or, for
  the per-band normalizer vectors, as functions `Fin B → ℚ` (numpy's
  elementwise vector operations become pointwise operations);
* a possibly-NaN float entry is embedded as `Option ℚ`, `none` standing
  for a non-finite entry (the code only ever produces / tests NaN via
  `np.nanmean` / `np.isnan` / `np.nan_to_num`);
* the normalizing dictionary `{"mean": m, "std": s}` is embedded with the
  variance `s ** 2` in place of `s`: the code squares the stored std right
  back (`single_dict["std"] ** 2`) when merging, and `std = sqrt(var)` is a
  monotone bijection on nonnegative reals, so equalities of stds correspond
  exactly to equalities of variances;
* the dictionary `self.norm_interim`, which starts as `{"n": 0}` and gains
  `"mean"`/`"M2"` keys on the first `update_normalizing_values` call, is
  embedded as `Option (NormInterim B)`, `none` standing for the
  uninitialized state.
-/

namespace CropHarvest

/-- `MISSING_DATA = -1`, the sentinel for unlabeled test pixels. -/
def MISSING_DATA : ℤ := -1

/-! `Engineer.find_nearest`

`idx = (np.abs(array - value)).argmin(); return array[idx]` — `argmin`
returns the first index attaining the minimum. -/

/-- Embedding of `Engineer.find_nearest`: the first element of the list
minimizing the absolute difference to `value` (`0` on the empty list, where
numpy would fault). -/
def find_nearest (array : List ℚ) (value : ℚ) : ℚ :=
  match array with
  | [] => 0
  | x :: xs => xs.foldl (fun best y => if |y - value| < |best - value| then y else best) x

/-! Test-instance label construction (`Engineer.process_test_file`)

```
positive = (~positive_mask).astype(int)
negative = (~negative_mask).astype(int) * -1
y = positive + negative
negative = y == -1
missing = y == 0
y[negative] = 0
y[missing] = MISSING_DATA
```
The masks and the arithmetic act independently on each pixel, so the
embedding is the per-pixel function, mapped over the flattened grid. -/

/-- Per-pixel label: `p` is true iff the pixel is inside at least one
positive geometry, `n` iff inside at least one negative geometry. -/
def test_label (p n : Bool) : ℤ :=
  let positive : ℤ := if p then 1 else 0
  let negative : ℤ := if n then -1 else 0
  let y := positive + negative
  if y = -1 then 0 else if y = 0 then MISSING_DATA else y

/-- The vector of per-pixel labels over the flattened grid. -/
def test_labels (ps ns : List Bool) : List ℤ :=
  List.zipWith test_label ps ns

/-! Online normalizer (`Engineer.update_normalizing_values`,
`Engineer.calculate_normalizing_dict`, `Engineer.adjust_normalizing_dict`) -/

/-- The initialized content of `self.norm_interim`: running count `n`,
per-band running mean, per-band running sum of squared deviations `M2`. -/
@[ext]
structure NormInterim (B : ℕ) where
  n : ℕ
  mean : Fin B → ℚ
  M2 : Fin B → ℚ
deriving DecidableEq

/-- The zero-initialized interim state (`np.zeros(num_bands)` for both
vectors, `n = 0`). -/
def zeroInterim (B : ℕ) : NormInterim B :=
  ⟨0, fun _ => 0, fun _ => 0⟩

/-- One iteration of the Welford loop body of
`Engineer.update_normalizing_values`, folding a single row `x` in:
`n += 1; delta = x - mean; mean += delta / n; M2 += delta * (x - mean)`
(the `M2` update uses the already-updated mean). -/
def updateRow {B : ℕ} (s : NormInterim B) (x : Fin B → ℚ) : NormInterim B :=
  let n' : ℕ := s.n + 1
  let mean' : Fin B → ℚ := fun i => s.mean i + (x i - s.mean i) / (n' : ℚ)
  { n := n'
    mean := mean'
    M2 := fun i => s.M2 i + (x i - s.mean i) * (x i - mean' i) }

/-- Embedding of `Engineer.update_normalizing_values`: initialize the
interim state with zeros if the `"mean"` key is absent, then fold every
row of the `[timesteps, bands]` array in. -/
def update_normalizing_values {B : ℕ} (st : Option (NormInterim B))
    (array : List (Fin B → ℚ)) : Option (NormInterim B) :=
  some (array.foldl updateRow (st.getD (zeroInterim B)))

/-- The normalizing dictionary `{"mean": ..., "std": ...}`; `var`
represents the square of the stored std (see the file header). -/
@[ext]
structure NormDict (B : ℕ) where
  mean : Fin B → ℚ
  var : Fin B → ℚ
deriving DecidableEq

/-- Embedding of `Engineer.calculate_normalizing_dict`: `None` when the
`"mean"` key was never initialized, otherwise `M2 / (n - 1)` as the
variance together with the running mean. -/
def calculate_normalizing_dict {B : ℕ} (st : Option (NormInterim B)) :
    Option (NormDict B) :=
  match st with
  | none => none
  | some s => some ⟨s.mean, fun i => s.M2 i / ((s.n : ℚ) - 1)⟩

/-- The arithmetic core of `Engineer.adjust_normalizing_dict`, on pairs
whose dictionaries are all present:
`new_total = sum(lengths)`;
`new_mean = sum(mean_i * length_i) / new_total`;
`new_variance = sum((std_i**2 + (mean_i - new_mean)**2) * length_i) / new_total`. -/
def adjust_core {B : ℕ} (ds : List (ℕ × NormDict B)) : NormDict B :=
  let new_total : ℚ := ((ds.map Prod.fst).sum : ℕ)
  let new_mean : Fin B → ℚ :=
    fun i => (ds.map (fun p => p.2.mean i * (p.1 : ℚ))).sum / new_total
  { mean := new_mean
    var := fun i =>
      (ds.map (fun p => (p.2.var i + (p.2.mean i - new_mean i) ^ 2) * (p.1 : ℚ))).sum
        / new_total }

/-- Embedding of `Engineer.adjust_normalizing_dict`: `None` as soon as any
of the paired dictionaries is `None` (the early `return None` of the
source loop), otherwise the weighted combination `adjust_core`. -/
def adjust_normalizing_dict {B : ℕ} (dicts : List (ℕ × Option (NormDict B))) :
    Option (NormDict B) :=
  if dicts.all (fun p => p.2.isSome) then
    some (adjust_core (dicts.filterMap (fun p => p.2.map (fun d => (p.1, d)))))
  else none

/-! Band catalog

`DYNAMIC_BANDS` and `STATIC_BANDS` come from `cropharvest.eo`, which is not
part of this repository snapshot; the catalog is therefore kept abstract
(two ordered lists of band names, per the spec's Band Catalog description)
and the derived lists follow `engineer.py` verbatim:
`REMOVED_BANDS = ["B1", "B10"]`,
`RAW_BANDS = DYNAMIC_BANDS + STATIC_BANDS`,
`BANDS = [x for x in DYNAMIC_BANDS if x not in REMOVED_BANDS] + STATIC_BANDS + ["NDVI"]`. -/

/-- `REMOVED_BANDS = ["B1", "B10"]`. -/
def REMOVED_BANDS : List String := ["B1", "B10"]

/-- `RAW_BANDS = DYNAMIC_BANDS + STATIC_BANDS`. -/
def RAW_BANDS (DYNAMIC_BANDS STATIC_BANDS : List String) : List String :=
  DYNAMIC_BANDS ++ STATIC_BANDS

/-- `BANDS`: dynamic bands minus the removed ones, then the static bands,
then the derived trailing `"NDVI"` band. -/
def BANDS (DYNAMIC_BANDS STATIC_BANDS : List String) : List String :=
  DYNAMIC_BANDS.filter (fun x => x ∉ REMOVED_BANDS) ++ STATIC_BANDS ++ ["NDVI"]

/-! `Engineer.calculate_ndvi`

`band_1 = B8` (NIR), `band_2 = B4` (RED); their positions in the band axis
are fixed naturals (`BANDS.index("B8")` / `BANDS.index("B4")` in the
source), kept as parameters `iB8`, `iB4` here. The computation
`np.where((b1 + b2) > 0, (b1 - b2) / (b1 + b2), 0)` acts independently on
each `[timestep]` (rank 2) or `[pixel, timestep]` (rank 3) entry, and the
result is appended as a trailing band. -/

/-- The NDVI value of one timestep row. -/
def ndviVal (iB8 iB4 : ℕ) (row : List ℚ) : ℚ :=
  let b1 := row.getD iB8 0
  let b2 := row.getD iB4 0
  if b1 + b2 > 0 then (b1 - b2) / (b1 + b2) else 0

/-- Embedding of `Engineer.calculate_ndvi` on a rank-2 `[T, B]` array. -/
def calculate_ndvi (iB8 iB4 : ℕ) (a : List (List ℚ)) : List (List ℚ) :=
  a.map (fun row => row ++ [ndviVal iB8 iB4 row])

/-- Embedding of `Engineer.calculate_ndvi` on a rank-3 `[N, T, B]` array
(the same elementwise computation over the leading pixel axis). -/
def calculate_ndvi3 (iB8 iB4 : ℕ) (a : List (List (List ℚ))) :
    List (List (List ℚ)) :=
  a.map (calculate_ndvi iB8 iB4)

/-! `Engineer.fillna`

Entries are `Option ℚ`, `none` standing for NaN. `np.nanmean` over an
axis is the mean of the present entries, `none` when the whole slice is
missing. For rank 2, `mean_per_band = np.nanmean(array, axis=0)` and
`bands_index = 1`; for rank 3, `mean_per_band =
np.nanmean(np.nanmean(array, axis=0), axis=0)` (a mean of per-timestep
means) and `bands_index = 2`. The special case reads
`(sum(np.isnan(mean_per_band)) == bands_index) &
np.isnan(mean_per_band[BANDS.index("slope")]).all()`, the slope position
being the parameter `iSlope` here; on success the slope entry of
`mean_per_band` is overwritten with `average_slope`, and the source then
runs `assert not np.isnan(mean_per_band).any()` — when a band beyond the
slope band is still all-missing, the function raises `AssertionError`
rather than returning; only then is every NaN entry of band `i` replaced
by `mean_per_band[i]`. The three distinct outcomes (raise, `return None`,
return the filled array) are the three constructors of `FillnaOutcome`. -/

/-- Outcome of `Engineer.fillna`: a raised `AssertionError` (the failed
post-substitution assert), a normal `None` (the skip signal), or the
filled array. -/
inductive FillnaOutcome (α : Type) where
  | assertionError : FillnaOutcome α
  | noResult : FillnaOutcome α
  | filled : α → FillnaOutcome α
deriving DecidableEq

/-- `np.nanmean` of a vector: mean of the present entries, `none` when
every entry is missing. -/
def nanmean (l : List (Option ℚ)) : Option ℚ :=
  let vals := l.filterMap id
  if vals.isEmpty then none else some (vals.sum / (vals.length : ℚ))

/-- Fill step of `Engineer.fillna`: replace each missing entry of band `b`
by `mpb[b]` (`np.nan_to_num(array[:, i], nan=mean_per_band[i])`). -/
def fillWith (mpb : List (Option ℚ)) (a : List (List (Option ℚ))) :
    List (List (Option ℚ)) :=
  a.map (fun row => row.mapIdx (fun b x => x <|> mpb.getD b none))

/-- Embedding of `Engineer.fillna` on a rank-2 `[T, B]` array
(`bands_index = 1`); after substituting the average slope, the source
asserts that no all-missing band remains before filling. -/
def fillna (B iSlope : ℕ) (a : List (List (Option ℚ))) (average_slope : ℚ) :
    FillnaOutcome (List (List (Option ℚ))) :=
  let mpb : List (Option ℚ) :=
    (List.range B).map (fun b => nanmean (a.map (fun row => row.getD b none)))
  if mpb.count none ≠ 0 then
    if mpb.count none = 1 ∧ mpb.getD iSlope none = none then
      let mpb' := mpb.set iSlope (some average_slope)
      if mpb'.count none ≠ 0 then FillnaOutcome.assertionError
      else FillnaOutcome.filled (fillWith mpb' a)
    else FillnaOutcome.noResult
  else FillnaOutcome.filled (fillWith mpb a)

/-- Embedding of `Engineer.fillna` on a rank-3 `[N, T, B]` array
(`bands_index = 2`; note the count threshold the source compares against
is this `bands_index`); the same post-substitution assert guards the fill.
`T` is the length of the timestep axis. -/
def fillna3 (T B iSlope : ℕ) (a : List (List (List (Option ℚ))))
    (average_slope : ℚ) : FillnaOutcome (List (List (List (Option ℚ)))) :=
  let mpb : List (Option ℚ) :=
    (List.range B).map (fun b =>
      nanmean ((List.range T).map (fun t =>
        nanmean (a.map (fun pixel => (pixel.getD t []).getD b none)))))
  if mpb.count none ≠ 0 then
    if mpb.count none = 2 ∧ mpb.getD iSlope none = none then
      let mpb' := mpb.set iSlope (some average_slope)
      if mpb'.count none ≠ 0 then FillnaOutcome.assertionError
      else FillnaOutcome.filled (a.map (fillWith mpb'))
    else FillnaOutcome.noResult
  else FillnaOutcome.filled (a.map (fillWith mpb))

/-! `Engineer.remove_bands`

`indices_to_remove = [RAW_BANDS.index(b) for b in REMOVED_BANDS]`;
`indices_to_keep = [i for i in range(array.shape[bands_index]) if i not in
indices_to_remove]`; the kept indices are selected from the band axis. -/

/-- Embedding of `Engineer.remove_bands` on a rank-2 `[T, B]` array; the
band-axis length `array.shape[1]` is read off the first row. -/
def remove_bands (DYNAMIC_BANDS STATIC_BANDS : List String)
    (a : List (List ℚ)) : List (List ℚ) :=
  let indices_to_remove : List ℕ :=
    REMOVED_BANDS.map (fun b => (RAW_BANDS DYNAMIC_BANDS STATIC_BANDS).indexOf b)
  let indices_to_keep : List ℕ :=
    (List.range (a.headD []).length).filter (fun i => i ∉ indices_to_remove)
  a.map (fun row => indices_to_keep.map (fun i => row.getD i 0))

/-- Embedding of `Engineer.remove_bands` on a rank-3 `[N, T, B]` array
(`array[:, :, indices_to_keep]` with `bands_index = 2`); the band-axis
length `array.shape[2]` is read off the first row of the first pixel. -/
def remove_bands3 (DYNAMIC_BANDS STATIC_BANDS : List String)
    (a : List (List (List ℚ))) : List (List (List ℚ)) :=
  let indices_to_remove : List ℕ :=
    REMOVED_BANDS.map (fun b => (RAW_BANDS DYNAMIC_BANDS STATIC_BANDS).indexOf b)
  let indices_to_keep : List ℕ :=
    (List.range ((a.headD []).headD []).length).filter
      (fun i => i ∉ indices_to_remove)
  a.map (fun grid => grid.map (fun row => indices_to_keep.map (fun i => row.getD i 0)))

/-! `Engineer.create_pickled_dataset` (checkpoint branch)

A raw training file is abstracted to whether its output pickle already
exists (`(arrays_dir / file_name).exists()`) and to the `[T, B]` feature
rows of its processed instance — `none` when `process_single_file`
returns `None` (imputation failure, the file is counted as skipped).
The run below is the `checkpoint=True` loop: an already-written file is
skipped by `continue` before any processing; otherwise the instance is
built, written, counted in `num_new_files`, and its rows are folded into
`self.norm_interim` (which starts uninitialized for a fresh `Engineer`).
When a previously persisted normalizing dictionary exists it is paired
with the number of already-existing array files and merged with the pair
`(num_new_files, calculate_normalizing_dict())`. -/

/-- One raw training `.tif` file, abstracted for the checkpoint run. -/
structure RawFile (B : ℕ) where
  outputExists : Bool
  rows : Option (List (Fin B → ℚ))

/-- The arrays folded into the normalizer by the run: the instance rows of
exactly the files that are not skipped by the checkpoint and survive
imputation. -/
def newArrays {B : ℕ} (files : List (RawFile B)) : List (List (Fin B → ℚ)) :=
  files.filterMap (fun f => if f.outputExists then none else f.rows)

/-- The file loop of `Engineer.create_pickled_dataset` with
`checkpoint=True`: returns `num_new_files` and the final
`self.norm_interim`. -/
def processFiles {B : ℕ} (files : List (RawFile B)) :
    ℕ × Option (NormInterim B) :=
  files.foldl
    (fun acc f =>
      if f.outputExists then acc
      else
        match f.rows with
        | none => acc
        | some rows => (acc.1 + 1, update_normalizing_values acc.2 rows))
    (0, none)

/-- Embedding of `Engineer.create_pickled_dataset` with `checkpoint=True`
and a previously persisted normalizing dictionary present:
`old_normalizing_dict = (num_existing_files, old_nd)` is merged with
`(num_new_files, calculate_normalizing_dict())`. The returned value is
what the run persists (`None` means nothing is written). -/
def create_pickled_dataset {B : ℕ} (num_existing_files : ℕ)
    (old_nd : Option (NormDict B)) (files : List (RawFile B)) :
    Option (NormDict B) :=
  let r := processFiles files
  adjust_normalizing_dict
    [(num_existing_files, old_nd), (r.1, calculate_normalizing_dict r.2)]

/-! Theorems -/

/-- C1, counterexample: a pixel inside both a positive and a negative
geometry receives `1 + (-1) = 0`, which the swap step then maps to the
missing sentinel — it is labeled `-1`, not `1`, so positive does not take
precedence over negative. -/
theorem c1_overlap_pixel_not_positive :
    test_label true true = MISSING_DATA ∧ test_label true true ≠ 1 := by
  decide

/-- C1 (amended): for every pixel of the test raster grid, a pixel inside
at least one positive geometry and no negative geometry is labeled 1, a
pixel inside only negative geometries is labeled 0, and a pixel inside
neither geometry set or inside both geometry sets is labeled the missing
sentinel (-1). -/
theorem c1_test_labels_cases (ps ns : List Bool) (i : ℕ)
    (hp : i < ps.length) (hn : i < ns.length) :
    (test_labels ps ns).getD i 0 =
      if ps.getD i false = true ∧ ns.getD i false = false then 1
      else if ps.getD i false = false ∧ ns.getD i false = true then 0
      else MISSING_DATA := by
  have hlen : i < (test_labels ps ns).length := by
    simp only [test_labels, List.length_zipWith, lt_min_iff]
    exact ⟨hp, hn⟩
  rw [List.getD_eq_getElem _ _ hlen, List.getD_eq_getElem _ _ hp,
    List.getD_eq_getElem _ _ hn]
  have hz : (test_labels ps ns)[i] = test_label ps[i] ns[i] := by
    simp [test_labels]
  rw [hz]
  cases hps : ps[i] <;> cases hns : ns[i] <;> decide

/-- C1, witness for the amended theorem at a concrete grid. -/
theorem c1_test_labels_cases_witness :
    (test_labels [true, false] [false, false]).getD 0 0 = 1 := by
  have h := c1_test_labels_cases [true, false] [false, false] 0
    (by decide) (by decide)
  simpa using h

/-- C2: on a rank-2 array whose only all-missing band is the slope band,
`fillna` substitutes the average slope as claimed; but on a rank-3 array in
the same situation it returns `None`, because the special case compares
the count of all-missing bands against `bands_index`, which is `2` for
rank 3 — contradicting the claim, the spec scenario, and the function's
own post-substitution assertion; and the only rank-3 inputs that do enter
the special case (two all-missing bands, slope among them) leave the other
band all-missing and crash that assertion. -/
theorem c2_fillna_rank3_slope_bug :
    fillna 2 1 [[some 1, none]] 5 = FillnaOutcome.filled [[some 1, some 5]] ∧
    fillna3 1 2 1 [[[some 1, none]]] 5 = FillnaOutcome.noResult ∧
    fillna3 1 3 2 [[[some 1, none, none]]] 5 = FillnaOutcome.assertionError := by
  decide

/-- Helper for C9: the running-best fold of `find_nearest` stays inside
the candidates and attains the minimal absolute difference. -/
theorem find_nearest_fold_spec (value : ℚ) (xs : List ℚ) : ∀ b : ℚ,
    (xs.foldl (fun best y => if |y - value| < |best - value| then y else best) b = b ∨
      xs.foldl (fun best y => if |y - value| < |best - value| then y else best) b ∈ xs) ∧
    |xs.foldl (fun best y => if |y - value| < |best - value| then y else best) b - value|
      ≤ |b - value| ∧
    ∀ x ∈ xs,
      |xs.foldl (fun best y => if |y - value| < |best - value| then y else best) b - value|
        ≤ |x - value| := by
  induction xs with
  | nil => intro b; exact ⟨Or.inl rfl, le_rfl, by simp⟩
  | cons y ys ih =>
    intro b
    simp only [List.foldl_cons]
    obtain ⟨h1, h2, h3⟩ := ih (if |y - value| < |b - value| then y else b)
    have hle_b : |(if |y - value| < |b - value| then y else b) - value| ≤ |b - value| := by
      split <;> [linarith; exact le_rfl]
    have hle_y : |(if |y - value| < |b - value| then y else b) - value| ≤ |y - value| := by
      split <;> [exact le_rfl; linarith [not_lt.mp (by assumption)]]
    refine ⟨?_, le_trans h2 hle_b, ?_⟩
    · rcases h1 with h1 | h1
      · rw [h1]
        split
        · exact Or.inr (List.mem_cons_self _ _)
        · exact Or.inl rfl
      · exact Or.inr (List.mem_cons_of_mem _ h1)
    · intro x hx
      rcases List.mem_cons.mp hx with hx | hx
      · rw [hx] at *; exact le_trans h2 hle_y
      · exact h3 x hx

/-- C9: on every non-empty coordinate list, `find_nearest` returns one of
the list's own elements, and that element's absolute difference to the
target is minimal over the list. -/
theorem c9_find_nearest_member_minimal (array : List ℚ) (value : ℚ)
    (h : array ≠ []) :
    find_nearest array value ∈ array ∧
      ∀ x ∈ array, |find_nearest array value - value| ≤ |x - value| := by
  match array with
  | [] => exact absurd rfl h
  | a :: xs =>
    obtain ⟨h1, h2, h3⟩ := find_nearest_fold_spec value xs a
    constructor
    · rcases h1 with h1 | h1
      · rw [find_nearest, h1]; exact List.mem_cons_self _ _
      · exact List.mem_cons_of_mem _ h1
    · intro x hx
      rcases List.mem_cons.mp hx with hx | hx
      · rw [hx]; exact h2
      · exact h3 x hx

/-- C9, witness: snapping `4` onto the axis `[1, 5, 3]` returns a list
element at minimal distance. -/
theorem c9_find_nearest_member_minimal_witness :
    find_nearest [1, 5, 3] 4 ∈ [(1 : ℚ), 5, 3] ∧
      ∀ x ∈ [(1 : ℚ), 5, 3], |find_nearest [1, 5, 3] 4 - 4| ≤ |x - 4| :=
  c9_find_nearest_member_minimal [1, 5, 3] 4 (by decide)

/-- C10: the NDVI division is guarded by `(NIR + RED) > 0`: every entry
with a non-positive denominator (zero or strictly negative) gets the value
`0`, and the quotient is used exactly where the denominator is positive;
the whole rank-2 output is the input with this guarded value appended
per row. -/
theorem c10_ndvi_nonpositive_denominator_zero (iB8 iB4 : ℕ) (row : List ℚ) :
    (row.getD iB8 0 + row.getD iB4 0 ≤ 0 → ndviVal iB8 iB4 row = 0) ∧
    (0 < row.getD iB8 0 + row.getD iB4 0 →
      ndviVal iB8 iB4 row =
        (row.getD iB8 0 - row.getD iB4 0) / (row.getD iB8 0 + row.getD iB4 0)) ∧
    ∀ a : List (List ℚ),
      calculate_ndvi iB8 iB4 a = a.map (fun r => r ++ [ndviVal iB8 iB4 r]) := by
  refine ⟨?_, ?_, fun a => rfl⟩
  · intro hle
    rw [ndviVal, if_neg (by simpa using not_lt.mpr hle)]
  · intro hlt
    rw [ndviVal, if_pos (by simpa using hlt)]

/-- C10, witness: a strictly negative denominator yields NDVI `0`. -/
theorem c10_ndvi_nonpositive_denominator_zero_witness :
    ndviVal 0 1 [(-2 : ℚ), 1] = 0 :=
  (c10_ndvi_nonpositive_denominator_zero 0 1 [(-2 : ℚ), 1]).1 (by norm_num)

/-- C6, counterexample: at NIR `-2`, RED `1` the denominator is `-1`,
which is not zero, so the claim prescribes the quotient
`(-2 - 1) / (-2 + 1) = 3`; the code produces `0` for every non-positive
denominator, so the appended value is `0 ≠ 3`. -/
theorem c6_ndvi_negative_denominator :
    calculate_ndvi 0 1 [[(-2 : ℚ), 1]] = [[(-2 : ℚ), 1, 0]] ∧
    ((-2 : ℚ) + 1 ≠ 0) ∧
    ((-2 : ℚ) - 1) / ((-2 : ℚ) + 1) ≠ 0 := by
  refine ⟨?_, by norm_num, by norm_num⟩
  simp [calculate_ndvi, ndviVal]

/-- C6 (amended): NDVI derivation appends exactly one trailing band whose
value at each timestep (and pixel) equals `(NIR - RED) / (NIR + RED)` from
the two fixed NIR and RED band positions, except that wherever the
denominator `NIR + RED` is non-positive (zero or negative) the NDVI value
is exactly `0`; all pre-existing bands are carried into the output
unchanged, and the rank-3 transform applies the rank-2 transform to every
pixel. -/
theorem c6_ndvi_appends_guarded_quotient (iB8 iB4 : ℕ) (a : List (List ℚ))
    (a3 : List (List (List ℚ))) :
    (calculate_ndvi iB8 iB4 a).length = a.length ∧
    (∀ i, i < a.length →
      (calculate_ndvi iB8 iB4 a).getD i [] =
        a.getD i [] ++
          [if 0 < (a.getD i []).getD iB8 0 + (a.getD i []).getD iB4 0 then
              ((a.getD i []).getD iB8 0 - (a.getD i []).getD iB4 0) /
                ((a.getD i []).getD iB8 0 + (a.getD i []).getD iB4 0)
            else 0]) ∧
    calculate_ndvi3 iB8 iB4 a3 = a3.map (calculate_ndvi iB8 iB4) := by
  refine ⟨by simp [calculate_ndvi], ?_, rfl⟩
  intro i hi
  have hi' : i < (calculate_ndvi iB8 iB4 a).length := by
    simpa [calculate_ndvi] using hi
  rw [List.getD_eq_getElem _ _ hi', List.getD_eq_getElem _ _ hi]
  simp [calculate_ndvi, ndviVal]

/-- C6, witness for the amended theorem at a concrete array. -/
theorem c6_ndvi_appends_guarded_quotient_witness :
    (calculate_ndvi 0 1 [[(3 : ℚ), 1]]).getD 0 [] =
      [(3 : ℚ), 1] ++
        [if 0 < (([(3 : ℚ), 1]).getD 0 0 + ([(3 : ℚ), 1]).getD 1 0) then
            (([(3 : ℚ), 1]).getD 0 0 - ([(3 : ℚ), 1]).getD 1 0) /
              (([(3 : ℚ), 1]).getD 0 0 + ([(3 : ℚ), 1]).getD 1 0)
          else 0] := by
  have h := (c6_ndvi_appends_guarded_quotient 0 1 [[(3 : ℚ), 1]] []).2.1 0
    (by decide)
  simpa using h

/-- C3, counterexample: after folding a single sample row (`n = 1`, fewer
than 2 samples), the read-out is not "unavailable" — the code only returns
`None` when the `"mean"` key was never initialized, so a dictionary is
returned already at `n = 1`. -/
theorem c3_readout_available_after_one_row :
    update_normalizing_values (B := 1) none [![3]] =
      some ⟨1, ![3], ![0]⟩ ∧
    calculate_normalizing_dict
      (update_normalizing_values (B := 1) none [![3]]) ≠ none := by
  constructor
  · simp only [update_normalizing_values, List.foldl_cons, List.foldl_nil,
      Option.getD_none]
    congr 1
    rw [updateRow, zeroInterim]
    refine NormInterim.mk.injEq _ _ _ _ _ _ |>.mpr ⟨rfl, ?_, ?_⟩ <;>
      funext i <;> fin_cases i <;> norm_num
  · simp [update_normalizing_values, calculate_normalizing_dict]

/-- C3 (amended): the normalizer read-out returns "unavailable" (`None`)
exactly when no sample has ever been folded in (the interim state is
uninitialized); once the state is initialized a dictionary is returned
even at `n = 1`, and whenever `n ≥ 2` it carries the running mean together
with variance `M2 / (n - 1)` (i.e. std `sqrt(M2 / (n - 1))`). -/
theorem c3_readout_none_iff_uninitialized (B : ℕ) (st : Option (NormInterim B)) :
    (calculate_normalizing_dict st = none ↔ st = none) ∧
    (∀ s : NormInterim B, 2 ≤ s.n →
      calculate_normalizing_dict (some s) =
        some ⟨s.mean, fun i => s.M2 i / ((s.n : ℚ) - 1)⟩) := by
  constructor
  · cases st <;> simp [calculate_normalizing_dict]
  · intro s _
    rfl

/-- C3, witness for the amended theorem at `n = 2`. -/
theorem c3_readout_none_iff_uninitialized_witness :
    calculate_normalizing_dict (some (⟨2, ![4], ![6]⟩ : NormInterim 1)) =
      some ⟨![4], fun i => (![6] : Fin 1 → ℚ) i / (((2 : ℕ) : ℚ) - 1)⟩ :=
  (c3_readout_none_iff_uninitialized 1 (some ⟨2, ![4], ![6]⟩)).2 _ (by norm_num)

/-- C4: merging `(count, stats)` pairs returns "unavailable" as soon as
any stats entry is unavailable; on all-present inputs the merged mean is
the count-weighted average of the input means and the merged variance is
the count-weighted average of `var_i + (mean_i - merged_mean)^2` (with
`var_i = std_i^2`); in particular merging `(100, mean [1.0], var 0)` with
`(50, mean [2.0], var 0)` yields merged mean `4/3`. -/
theorem c4_adjust_weighted_merge :
    (∀ (B : ℕ) (dicts : List (ℕ × Option (NormDict B))),
      (∃ p ∈ dicts, p.2 = none) → adjust_normalizing_dict dicts = none) ∧
    (∀ (B : ℕ) (ds : List (ℕ × NormDict B)),
      adjust_normalizing_dict (ds.map (fun p => (p.1, some p.2))) =
        some
          { mean := fun i =>
              (ds.map (fun p => p.2.mean i * (p.1 : ℚ))).sum /
                (((ds.map Prod.fst).sum : ℕ) : ℚ)
            var := fun i =>
              (ds.map (fun p =>
                (p.2.var i +
                  (p.2.mean i -
                    (ds.map (fun q => q.2.mean i * (q.1 : ℚ))).sum /
                      (((ds.map Prod.fst).sum : ℕ) : ℚ)) ^ 2) * (p.1 : ℚ))).sum /
                (((ds.map Prod.fst).sum : ℕ) : ℚ) }) ∧
    (adjust_normalizing_dict
        [(100, some (⟨![1], ![0]⟩ : NormDict 1)), (50, some ⟨![2], ![0]⟩)]).map
      (fun d => d.mean 0) = some (4 / 3) := by
  refine ⟨?_, ?_, ?_⟩
  · intro B dicts ⟨p, hp, hnone⟩
    rw [adjust_normalizing_dict, if_neg]
    intro hall
    have := List.all_eq_true.mp hall p hp
    rw [hnone] at this
    exact absurd this (by simp)
  · intro B ds
    rw [adjust_normalizing_dict, if_pos (List.all_eq_true.mpr (by
      intro p hp
      obtain ⟨q, _, rfl⟩ := List.mem_map.mp hp
      simp))]
    congr 1
    rw [adjust_core]
    have hfm : (ds.map (fun p => (p.1, some p.2))).filterMap
        (fun p => p.2.map (fun d => (p.1, d))) = ds := by
      rw [List.filterMap_map]
      simpa using List.filterMap_eq_map (fun p : ℕ × NormDict B => (p.1, p.2)) ▸
        (by simp : ds.map (fun p : ℕ × NormDict B => (p.1, p.2)) = ds)
    rw [hfm]
  · simp only [adjust_normalizing_dict, adjust_core, List.filterMap,
      Option.map_some, List.all_cons, List.all_nil, Option.isSome_some,
      Bool.and_self, if_true, List.map_cons, List.map_nil, Option.map_some]
    norm_num

/-- C4, witness: unavailability propagates through the merge. -/
theorem c4_adjust_weighted_merge_witness :
    adjust_normalizing_dict [(3, (none : Option (NormDict 1)))] = none :=
  c4_adjust_weighted_merge.1 1 [(3, none)] ⟨(3, none), by simp, rfl⟩

/-- Helper for C5/C7: closed form of the Welford fold from the zero state.
After folding `rows`, `n` is the row count, `mean` is the exact per-band
average, and `M2` is the exact per-band sum of squared deviations in the
form `sum of squares - (sum)^2 / n` (all divisions by zero denote `0`,
matching the zero initial state). -/
theorem foldl_updateRow_closed_form {B : ℕ} (rows : List (Fin B → ℚ)) :
    rows.foldl updateRow (zeroInterim B) =
      { n := rows.length
        mean := fun i => (rows.map (fun x => x i)).sum / (rows.length : ℚ)
        M2 := fun i =>
          (rows.map (fun x => x i ^ 2)).sum -
            ((rows.map (fun x => x i)).sum) ^ 2 / (rows.length : ℚ) } := by
  induction rows using List.reverseRecOn with
  | nil => simp [zeroInterim]
  | append_singleton l x ih =>
    rw [List.foldl_append, List.foldl_cons, List.foldl_nil, ih, updateRow]
    ext i
    · simp
    · simp only [List.map_append, List.sum_append, List.map_cons, List.map_nil,
        List.sum_cons, List.sum_nil, List.length_append, List.length_cons,
        List.length_nil]
      rcases eq_or_ne l [] with rfl | hl
      · simp
      · have hn : ((l.length : ℚ)) ≠ 0 :=
          Nat.cast_ne_zero.mpr (fun h => hl (List.length_eq_zero.mp h))
        have hn1 : ((l.length : ℚ) + 1) ≠ 0 := by positivity
        push_cast
        field_simp
        ring
    · simp only [List.map_append, List.sum_append, List.map_cons, List.map_nil,
        List.sum_cons, List.sum_nil, List.length_append, List.length_cons,
        List.length_nil]
      rcases eq_or_ne l [] with rfl | hl
      · simp
      · have hn : ((l.length : ℚ)) ≠ 0 :=
          Nat.cast_ne_zero.mpr (fun h => hl (List.length_eq_zero.mp h))
        have hn1 : ((l.length : ℚ) + 1) ≠ 0 := by positivity
        push_cast
        field_simp
        ring

/-- Helper for C5: expanding the squared deviation around an arbitrary
center `c` inside the weighted sum of `adjust_core`. -/
theorem adjust_sum_expand {B : ℕ} (c : ℚ) (ds : List (ℕ × NormDict B)) (i : Fin B) :
    (ds.map (fun p => (p.2.var i + (p.2.mean i - c) ^ 2) * (p.1 : ℚ))).sum =
      (ds.map (fun p => (p.2.var i + p.2.mean i ^ 2) * (p.1 : ℚ))).sum -
        2 * c * (ds.map (fun p => p.2.mean i * (p.1 : ℚ))).sum +
        c ^ 2 * (ds.map (fun p => (p.1 : ℚ))).sum := by
  induction ds with
  | nil => simp
  | cons d tl ih =>
    simp only [List.map_cons, List.sum_cons, ih]
    ring

/-- Helper for C5: the total weight of `adjust_core` as a rational. -/
theorem adjust_total_cast {B : ℕ} (ds : List (ℕ × NormDict B)) :
    ((((ds.map Prod.fst).sum : ℕ)) : ℚ) = (ds.map (fun p => (p.1 : ℚ))).sum := by
  induction ds with
  | nil => simp
  | cons d tl ih => simp [ih]

/-- Helper for C5: the merged statistics of `adjust_core` in moment form —
the merged mean is the weighted first moment over the total weight, and the
merged variance is the weighted second moment over the total weight minus
the square of the merged mean. -/
theorem adjust_core_moments {B : ℕ} (ds : List (ℕ × NormDict B)) (i : Fin B) :
    (adjust_core ds).mean i =
      (ds.map (fun p => p.2.mean i * (p.1 : ℚ))).sum /
        (((ds.map Prod.fst).sum : ℕ) : ℚ) ∧
    (adjust_core ds).var i =
      (ds.map (fun p => (p.2.var i + p.2.mean i ^ 2) * (p.1 : ℚ))).sum /
          (((ds.map Prod.fst).sum : ℕ) : ℚ) -
        ((adjust_core ds).mean i) ^ 2 := by
  refine ⟨rfl, ?_⟩
  show (ds.map (fun p =>
      (p.2.var i + (p.2.mean i - (adjust_core ds).mean i) ^ 2) * (p.1 : ℚ))).sum /
        (((ds.map Prod.fst).sum : ℕ) : ℚ) = _
  set N : ℚ := (((ds.map Prod.fst).sum : ℕ) : ℚ) with hN
  set S : ℚ := (ds.map (fun p => p.2.mean i * (p.1 : ℚ))).sum with hS
  have hmean : (adjust_core ds).mean i = S / N := rfl
  rw [adjust_sum_expand, ← adjust_total_cast, ← hN, hmean]
  rcases eq_or_ne N 0 with h0 | h0
  · simp [h0]
  · field_simp
    ring

/-- Helper for C5/C7: on a list whose dictionaries are all present,
`adjust_normalizing_dict` is `adjust_core` of the unwrapped list. -/
theorem adjust_normalizing_dict_some {B : ℕ} (ds : List (ℕ × NormDict B)) :
    adjust_normalizing_dict (ds.map (fun p => (p.1, some p.2))) =
      some (adjust_core ds) := by
  rw [adjust_normalizing_dict, if_pos (List.all_eq_true.mpr (by
    intro p hp
    obtain ⟨q, _, rfl⟩ := List.mem_map.mp hp
    simp))]
  have hlist : (ds.map (fun p => (p.1, some p.2))).filterMap
      (fun p => p.2.map (fun d => (p.1, d))) = ds := by
    induction ds with
    | nil => rfl
    | cons d tl ih => simp [List.filterMap_cons, ih]
  rw [hlist]

/-- Helper for C5: a weighted mean times its own weight recovers the
weighted sum, also when the weight is the zero of an empty accumulation. -/
theorem div_mul_cancel_weight (a : ℚ) (b : ℚ) (h : b = 0 → a = 0) :
    a / b * b = a := by
  rcases eq_or_ne b 0 with rfl | hb
  · simp [h rfl]
  · field_simp

/-- Helper for C5: the merged mean of a two-element merge in closed form. -/
theorem adjust_pair_mean {B : ℕ} (n1 n2 : ℕ) (d1 d2 : NormDict B) :
    (adjust_normalizing_dict [(n1, some d1), (n2, some d2)]).map NormDict.mean =
      some (fun i => (d1.mean i * n1 + d2.mean i * n2) / ((n1 : ℚ) + n2)) := by
  have e := adjust_normalizing_dict_some (B := B) [(n1, d1), (n2, d2)]
  simp only [List.map_cons, List.map_nil] at e
  rw [e, Option.map_some']
  congr 1
  funext i
  simp only [adjust_core, List.map_cons, List.map_nil, List.sum_cons, List.sum_nil]
  push_cast
  ring

/-- Helper for C5: two merges with the same total weight, the same weighted
first moments and the same weighted second moments are equal. -/
theorem adjust_core_congr_moments {B : ℕ} (ds1 ds2 : List (ℕ × NormDict B))
    (hw : (ds1.map Prod.fst).sum = (ds2.map Prod.fst).sum)
    (hS : ∀ i, (ds1.map (fun p => p.2.mean i * (p.1 : ℚ))).sum =
      (ds2.map (fun p => p.2.mean i * (p.1 : ℚ))).sum)
    (hQ : ∀ i, (ds1.map (fun p => (p.2.var i + p.2.mean i ^ 2) * (p.1 : ℚ))).sum =
      (ds2.map (fun p => (p.2.var i + p.2.mean i ^ 2) * (p.1 : ℚ))).sum) :
    adjust_core ds1 = adjust_core ds2 := by
  have hmean : ∀ i, (adjust_core ds1).mean i = (adjust_core ds2).mean i := by
    intro i
    rw [(adjust_core_moments ds1 i).1, (adjust_core_moments ds2 i).1, hw, hS]
  refine NormDict.ext (funext hmean) ?_
  funext i
  rw [(adjust_core_moments ds1 i).2, (adjust_core_moments ds2 i).2, hw, hQ, hmean]

/-- Helper for C5: the inner merge of a nested merge contributes exactly
its weighted first moment. -/
theorem adjust_core_pair_first_moment {B : ℕ} (n1 n2 : ℕ) (d1 d2 : NormDict B)
    (i : Fin B) :
    (adjust_core [(n1, d1), (n2, d2)]).mean i * ((n1 + n2 : ℕ) : ℚ) =
      d1.mean i * n1 + d2.mean i * n2 := by
  rw [(adjust_core_moments [(n1, d1), (n2, d2)] i).1]
  simp only [List.map_cons, List.map_nil, List.sum_cons, List.sum_nil, add_zero]
  exact div_mul_cancel_weight _ _ (fun h => by
    have h0 : n1 + n2 = 0 := by exact_mod_cast h
    have hz1 : n1 = 0 := by omega
    have hz2 : n2 = 0 := by omega
    simp [hz1, hz2])

/-- Helper for C5: the inner merge of a nested merge contributes exactly
its weighted second moment. -/
theorem adjust_core_pair_second_moment {B : ℕ} (n1 n2 : ℕ) (d1 d2 : NormDict B)
    (i : Fin B) :
    ((adjust_core [(n1, d1), (n2, d2)]).var i +
        ((adjust_core [(n1, d1), (n2, d2)]).mean i) ^ 2) * ((n1 + n2 : ℕ) : ℚ) =
      (d1.var i + d1.mean i ^ 2) * n1 + (d2.var i + d2.mean i ^ 2) * n2 := by
  have hv := (adjust_core_moments [(n1, d1), (n2, d2)] i).2
  have hsum : (adjust_core [(n1, d1), (n2, d2)]).var i +
      ((adjust_core [(n1, d1), (n2, d2)]).mean i) ^ 2 =
      ([(n1, d1), (n2, d2)].map
          (fun p => (p.2.var i + p.2.mean i ^ 2) * (p.1 : ℚ))).sum /
        ((([(n1, d1), (n2, d2)].map Prod.fst).sum : ℕ) : ℚ) := by
    rw [hv]
    ring
  rw [hsum]
  simp only [List.map_cons, List.map_nil, List.sum_cons, List.sum_nil, add_zero]
  exact div_mul_cancel_weight _ _ (fun h => by
    have h0 : n1 + n2 = 0 := by exact_mod_cast h
    have hz1 : n1 = 0 := by omega
    have hz2 : n2 = 0 := by omega
    simp [hz1, hz2])

/-- C5, counterexample: folding `[0, 0]` and `[2, 2]` into two separate
accumulators (each tagged with its sample count 2) and merging gives
variance `1`, while folding all four rows sequentially into one
accumulator gives sample variance `4 / (4 - 1) = 4/3`; the merge does not
reproduce the sequential fold exactly. -/
theorem c5_merge_differs_from_sequential_fold :
    adjust_normalizing_dict
        [(2, calculate_normalizing_dict
              (update_normalizing_values (B := 1) none [fun _ => 0, fun _ => 0])),
         (2, calculate_normalizing_dict
              (update_normalizing_values (B := 1) none [fun _ => 2, fun _ => 2]))] ≠
      calculate_normalizing_dict
        (update_normalizing_values (B := 1) none
          [fun _ => 0, fun _ => 0, fun _ => 2, fun _ => 2]) := by
  intro h
  have h2 := congrArg
    (fun o : Option (NormDict 1) => ((o.getD ⟨fun _ => 0, fun _ => 0⟩).var) 0) h
  simp only [update_normalizing_values, List.foldl_cons, List.foldl_nil,
    Option.getD_none, updateRow, zeroInterim, calculate_normalizing_dict,
    adjust_normalizing_dict, adjust_core, List.all_cons, List.all_nil,
    Option.isSome_some, Bool.and_self, if_true, List.filterMap_cons,
    Option.map_some, List.filterMap_nil, List.map_cons, List.map_nil,
    List.sum_cons, List.sum_nil, Option.getD_some] at h2
  norm_num at h2

/-- C5 (amended): over exact arithmetic, folding a multiset of rows into
the Online Normalizer in any order yields the same final state (hence the
same mean and std); the merge operation is commutative and associative;
and merging two accumulators built from disjoint subsets of the rows, each
tagged with its own sample count, yields the same *mean* as folding all
rows sequentially into a single accumulator — but not, in general, the
same std (see the counterexample). -/
theorem c5_fold_perm_merge_algebra :
    (∀ (B : ℕ) (rows rows' : List (Fin B → ℚ)), rows.Perm rows' →
      update_normalizing_values none rows = update_normalizing_values none rows') ∧
    (∀ (B : ℕ) (n1 n2 : ℕ) (o1 o2 : Option (NormDict B)),
      adjust_normalizing_dict [(n1, o1), (n2, o2)] =
        adjust_normalizing_dict [(n2, o2), (n1, o1)]) ∧
    (∀ (B : ℕ) (n1 n2 n3 : ℕ) (d1 d2 d3 : NormDict B),
      adjust_normalizing_dict
          [(n1 + n2, adjust_normalizing_dict [(n1, some d1), (n2, some d2)]),
           (n3, some d3)] =
        adjust_normalizing_dict [(n1, some d1), (n2, some d2), (n3, some d3)]) ∧
    (∀ (B : ℕ) (n1 n2 n3 : ℕ) (d1 d2 d3 : NormDict B),
      adjust_normalizing_dict
          [(n1, some d1),
           (n2 + n3, adjust_normalizing_dict [(n2, some d2), (n3, some d3)])] =
        adjust_normalizing_dict [(n1, some d1), (n2, some d2), (n3, some d3)]) ∧
    (∀ (B : ℕ) (rowsA rowsB : List (Fin B → ℚ)),
      (adjust_normalizing_dict
          [(rowsA.length,
            calculate_normalizing_dict (update_normalizing_values none rowsA)),
           (rowsB.length,
            calculate_normalizing_dict (update_normalizing_values none rowsB))]).map
        NormDict.mean =
      (calculate_normalizing_dict
          (update_normalizing_values none (rowsA ++ rowsB))).map NormDict.mean) := by
  refine ⟨?_, ?_, ?_, ?_, ?_⟩
  · intro B rows rows' h
    rw [update_normalizing_values, update_normalizing_values]
    simp only [Option.getD_none]
    rw [foldl_updateRow_closed_form, foldl_updateRow_closed_form]
    have hlen := h.length_eq
    congr 1
    refine NormInterim.ext hlen ?_ ?_
    · funext i
      show (rows.map (fun x => x i)).sum / (rows.length : ℚ) =
        (rows'.map (fun x => x i)).sum / (rows'.length : ℚ)
      rw [hlen, (h.map (fun x => x i)).sum_eq]
    · funext i
      show (rows.map (fun x => x i ^ 2)).sum -
          ((rows.map (fun x => x i)).sum) ^ 2 / (rows.length : ℚ) =
        (rows'.map (fun x => x i ^ 2)).sum -
          ((rows'.map (fun x => x i)).sum) ^ 2 / (rows'.length : ℚ)
      rw [hlen, (h.map (fun x => x i)).sum_eq, (h.map (fun x => x i ^ 2)).sum_eq]
  · intro B n1 n2 o1 o2
    cases o1 with
    | none => cases o2 <;> simp [adjust_normalizing_dict]
    | some d1 =>
      cases o2 with
      | none => simp [adjust_normalizing_dict]
      | some d2 =>
        have e1 := adjust_normalizing_dict_some (B := B) [(n1, d1), (n2, d2)]
        have e2 := adjust_normalizing_dict_some (B := B) [(n2, d2), (n1, d1)]
        simp only [List.map_cons, List.map_nil] at e1 e2
        rw [e1, e2]
        congr 1
        refine adjust_core_congr_moments _ _ (by simp; omega) (fun i => ?_) (fun i => ?_) <;>
          simp only [List.map_cons, List.map_nil, List.sum_cons, List.sum_nil,
            add_zero] <;> ring
  · intro B n1 n2 n3 d1 d2 d3
    have e12 := adjust_normalizing_dict_some (B := B) [(n1, d1), (n2, d2)]
    simp only [List.map_cons, List.map_nil] at e12
    rw [e12]
    have eo := adjust_normalizing_dict_some (B := B)
      [(n1 + n2, adjust_core [(n1, d1), (n2, d2)]), (n3, d3)]
    simp only [List.map_cons, List.map_nil] at eo
    rw [eo]
    have et := adjust_normalizing_dict_some (B := B) [(n1, d1), (n2, d2), (n3, d3)]
    simp only [List.map_cons, List.map_nil] at et
    rw [et]
    congr 1
    refine adjust_core_congr_moments _ _ (by simp; omega) (fun i => ?_) (fun i => ?_)
    · simp only [List.map_cons, List.map_nil, List.sum_cons, List.sum_nil, add_zero]
      rw [adjust_core_pair_first_moment]
      ring
    · simp only [List.map_cons, List.map_nil, List.sum_cons, List.sum_nil, add_zero]
      rw [adjust_core_pair_second_moment]
      ring
  · intro B n1 n2 n3 d1 d2 d3
    have e23 := adjust_normalizing_dict_some (B := B) [(n2, d2), (n3, d3)]
    simp only [List.map_cons, List.map_nil] at e23
    rw [e23]
    have eo := adjust_normalizing_dict_some (B := B)
      [(n1, d1), (n2 + n3, adjust_core [(n2, d2), (n3, d3)])]
    simp only [List.map_cons, List.map_nil] at eo
    rw [eo]
    have et := adjust_normalizing_dict_some (B := B) [(n1, d1), (n2, d2), (n3, d3)]
    simp only [List.map_cons, List.map_nil] at et
    rw [et]
    congr 1
    refine adjust_core_congr_moments _ _ (by
        simp only [List.map_cons, List.map_nil, List.sum_cons, List.sum_nil]
        omega)
      (fun i => ?_) (fun i => ?_)
    · simp only [List.map_cons, List.map_nil, List.sum_cons, List.sum_nil, add_zero]
      rw [adjust_core_pair_first_moment]
    · simp only [List.map_cons, List.map_nil, List.sum_cons, List.sum_nil, add_zero]
      rw [adjust_core_pair_second_moment]
  · intro B rowsA rowsB
    rw [update_normalizing_values, update_normalizing_values,
      update_normalizing_values]
    simp only [Option.getD_none]
    rw [foldl_updateRow_closed_form, foldl_updateRow_closed_form,
      foldl_updateRow_closed_form]
    simp only [calculate_normalizing_dict]
    rw [adjust_pair_mean, Option.map_some']
    congr 1
    funext i
    have hA : (rowsA.map (fun x => x i)).sum / (rowsA.length : ℚ) *
        (rowsA.length : ℚ) = (rowsA.map (fun x => x i)).sum :=
      div_mul_cancel_weight _ _ (fun h => by
        have hnil : rowsA = [] := List.length_eq_zero.mp (by exact_mod_cast h)
        simp [hnil])
    have hB : (rowsB.map (fun x => x i)).sum / (rowsB.length : ℚ) *
        (rowsB.length : ℚ) = (rowsB.map (fun x => x i)).sum :=
      div_mul_cancel_weight _ _ (fun h => by
        have hnil : rowsB = [] := List.length_eq_zero.mp (by exact_mod_cast h)
        simp [hnil])
    show ((rowsA.map (fun x => x i)).sum / (rowsA.length : ℚ) * (rowsA.length : ℚ) +
          (rowsB.map (fun x => x i)).sum / (rowsB.length : ℚ) * (rowsB.length : ℚ)) /
          ((rowsA.length : ℚ) + (rowsB.length : ℚ)) =
        ((rowsA ++ rowsB).map (fun x => x i)).sum / (((rowsA ++ rowsB).length : ℕ) : ℚ)
    rw [hA, hB]
    simp only [List.map_append, List.sum_append, List.length_append]
    push_cast
    ring

/-- C5, witness for the amended theorem: swapping two folded rows leaves
the accumulator unchanged. -/
theorem c5_fold_perm_merge_algebra_witness :
    update_normalizing_values (B := 1) none [fun _ => 1, fun _ => 2] =
      update_normalizing_values none [fun _ => 2, fun _ => 1] :=
  c5_fold_perm_merge_algebra.1 1 _ _ (List.Perm.swap _ _ _)

/-- Helper for C7: the checkpoint loop of `create_pickled_dataset`, from an
arbitrary accumulator: already-written files are skipped, every other
surviving instance is counted and folded. -/
theorem processFiles_foldl_go {B : ℕ} (files : List (RawFile B)) :
    ∀ acc : ℕ × Option (NormInterim B),
      files.foldl
        (fun acc f =>
          if f.outputExists then acc
          else
            match f.rows with
            | none => acc
            | some rows => (acc.1 + 1, update_normalizing_values acc.2 rows)) acc =
      (acc.1 + (newArrays files).length,
        (newArrays files).foldl update_normalizing_values acc.2) := by
  induction files with
  | nil =>
    intro acc
    simp [newArrays]
  | cons f tl ih =>
    intro acc
    rw [List.foldl_cons]
    by_cases hex : f.outputExists
    · rw [if_pos hex, ih]
      simp [newArrays, hex]
    · rw [if_neg hex]
      cases hrows : f.rows with
      | none =>
        rw [ih]
        simp [newArrays, hex, hrows]
      | some rows =>
        rw [ih]
        have hnew : newArrays (f :: tl) = rows :: newArrays tl := by
          simp [newArrays, hex, hrows]
        rw [hnew]
        simp only [List.length_cons, List.foldl_cons, Prod.mk.injEq]
        exact ⟨by omega, trivial⟩

/-- Helper for C7: `processFiles` in terms of the new files' arrays only. -/
theorem processFiles_spec {B : ℕ} (files : List (RawFile B)) :
    processFiles files = ((newArrays files).length,
      (newArrays files).foldl update_normalizing_values none) := by
  rw [processFiles, processFiles_foldl_go]
  simp

/-- Helper for C7: folding a list of arrays in is folding their
concatenated rows, starting from the zero state. -/
theorem foldl_update_nv_getD {B : ℕ} (arrays : List (List (Fin B → ℚ))) :
    ∀ st : Option (NormInterim B),
      (arrays.foldl update_normalizing_values st).getD (zeroInterim B) =
        arrays.flatten.foldl updateRow (st.getD (zeroInterim B)) := by
  induction arrays with
  | nil =>
    intro st
    simp
  | cons a tl ih =>
    intro st
    rw [List.foldl_cons, ih, List.flatten_cons, List.foldl_append]
    rfl

/-- Helper for C7: the length of a concatenation of arrays of uniform
length `T`. -/
theorem join_length_uniform {B : ℕ} (arrays : List (List (Fin B → ℚ))) (T : ℕ)
    (h : ∀ arr ∈ arrays, arr.length = T) :
    arrays.flatten.length = arrays.length * T := by
  induction arrays with
  | nil => simp
  | cons a tl ih =>
    rw [List.flatten_cons, List.length_append, List.length_cons,
      ih (fun arr harr => h arr (List.mem_cons_of_mem _ harr)),
      h a (List.mem_cons_self _ _)]
    ring

/-- Helper for C7: weighted sums of `adjust_core` scale linearly in the
weights. -/
theorem adjust_sum_scale {B : ℕ} (k : ℕ) (ds : List (ℕ × NormDict B))
    (F : NormDict B → ℚ) :
    ((ds.map (fun q => (q.1 * k, q.2))).map (fun p => F p.2 * (p.1 : ℚ))).sum =
      (k : ℚ) * (ds.map (fun p => F p.2 * (p.1 : ℚ))).sum := by
  induction ds with
  | nil => simp
  | cons d tl ih =>
    simp only [List.map_cons, List.sum_cons, ih]
    push_cast
    ring

/-- Helper for C7: the total weight of `adjust_core` scales linearly. -/
theorem adjust_total_scale {B : ℕ} (k : ℕ) (ds : List (ℕ × NormDict B)) :
    ((((ds.map (fun q => (q.1 * k, q.2))).map Prod.fst).sum : ℕ) : ℚ) =
      (k : ℚ) * (((ds.map Prod.fst).sum : ℕ) : ℚ) := by
  induction ds with
  | nil => simp
  | cons d tl ih =>
    simp only [List.map_cons, List.sum_cons, Nat.cast_add, ih]
    push_cast
    ring

/-- Helper for C7: multiplying every weight of a merge by the same nonzero
factor leaves the merged statistics unchanged. -/
theorem adjust_core_scale {B : ℕ} (k : ℕ) (hk : k ≠ 0)
    (ds : List (ℕ × NormDict B)) :
    adjust_core (ds.map (fun q => (q.1 * k, q.2))) = adjust_core ds := by
  have hk' : (k : ℚ) ≠ 0 := Nat.cast_ne_zero.mpr hk
  have hmean : ∀ i, (adjust_core (ds.map (fun q => (q.1 * k, q.2)))).mean i =
      (adjust_core ds).mean i := by
    intro i
    rw [(adjust_core_moments _ i).1, (adjust_core_moments ds i).1,
      adjust_total_scale]
    have hs := adjust_sum_scale k ds (fun d => d.mean i)
    simp only at hs
    rw [hs, mul_div_mul_left _ _ hk']
  refine NormDict.ext (funext hmean) ?_
  funext i
  rw [(adjust_core_moments _ i).2, (adjust_core_moments ds i).2,
    adjust_total_scale, hmean]
  have hs := adjust_sum_scale k ds (fun d => d.var i + d.mean i ^ 2)
  simp only at hs
  rw [hs, mul_div_mul_left _ _ hk']

/-- Helper for C7: rescaling the weights commutes with unwrapping the
present dictionaries. -/
theorem filterMap_weight_scale {B : ℕ} (k : ℕ)
    (dicts : List (ℕ × Option (NormDict B))) :
    (dicts.map (fun p => (p.1 * k, p.2))).filterMap
        (fun p => p.2.map (fun d => (p.1, d))) =
      (dicts.filterMap (fun p => p.2.map (fun d => (p.1, d)))).map
        (fun q => (q.1 * k, q.2)) := by
  induction dicts with
  | nil => rfl
  | cons d tl ih =>
    cases hd : d.2 with
    | none =>
      simp only [List.map_cons, List.filterMap_cons, hd, Option.map_none']
      exact ih
    | some v =>
      simp only [List.map_cons, List.filterMap_cons, hd, Option.map_some']
      rw [ih]

/-- Helper for C7: the same scale invariance through the `None`-propagating
wrapper. -/
theorem adjust_normalizing_dict_scale {B : ℕ} (k : ℕ) (hk : k ≠ 0)
    (dicts : List (ℕ × Option (NormDict B))) :
    adjust_normalizing_dict (dicts.map (fun p => (p.1 * k, p.2))) =
      adjust_normalizing_dict dicts := by
  rw [adjust_normalizing_dict, adjust_normalizing_dict, List.all_map]
  have hpred : ((fun p : ℕ × Option (NormDict B) => p.2.isSome) ∘
      (fun p : ℕ × Option (NormDict B) => (p.1 * k, p.2))) =
      fun p : ℕ × Option (NormDict B) => p.2.isSome := rfl
  rw [hpred]
  by_cases hall : dicts.all (fun p => p.2.isSome)
  · rw [if_pos hall, if_pos hall, filterMap_weight_scale k dicts,
      adjust_core_scale k hk]
  · rw [if_neg hall, if_neg hall]

/-- C7: on a checkpointed resume, every raw file whose output already
exists is skipped entirely — the normalizer state reached is exactly the
fold of the newly processed files' arrays (no pixel of a skipped file is
re-folded, counted via `n` exactly once) — and the persisted result equals
the merge of the previously-persisted dictionary, weighted by the sample
count it was computed from (`num_existing_files * T` for instances of `T`
rows each), with the dictionary accumulated from the newly processed files
only, weighted by its own sample count. -/
theorem c7_checkpoint_merge_frame (B T : ℕ) (hT : 0 < T) (num_existing : ℕ)
    (nd : NormDict B) (files : List (RawFile B))
    (hrows : ∀ arr ∈ newArrays files, arr.length = T) :
    processFiles files = ((newArrays files).length,
      (newArrays files).foldl update_normalizing_values none) ∧
    ((processFiles files).2.getD (zeroInterim B)).n =
      (newArrays files).length * T ∧
    create_pickled_dataset num_existing (some nd) files =
      adjust_normalizing_dict
        [(num_existing * T, some nd),
         ((newArrays files).length * T,
          calculate_normalizing_dict (processFiles files).2)] := by
  refine ⟨processFiles_spec files, ?_, ?_⟩
  · rw [processFiles_spec]
    simp only
    rw [foldl_update_nv_getD]
    simp only [Option.getD_none]
    rw [foldl_updateRow_closed_form]
    exact join_length_uniform _ T hrows
  · rw [create_pickled_dataset]
    have hscale := adjust_normalizing_dict_scale T (Nat.pos_iff_ne_zero.mp hT)
      [(num_existing, some nd),
       ((processFiles files).1, calculate_normalizing_dict (processFiles files).2)]
    simp only [List.map_cons, List.map_nil] at hscale
    rw [← hscale]
    rw [processFiles_spec]

/-- C7, witness at a concrete resumed run: one already-written file, one
new instance of 2 rows, one imputation failure. -/
theorem c7_checkpoint_merge_frame_witness :
    create_pickled_dataset 1 (some (⟨fun _ => 0, fun _ => 0⟩ : NormDict 1))
        [⟨true, some [fun _ => 5, fun _ => 6]⟩,
         ⟨false, some [fun _ => 1, fun _ => 2]⟩, ⟨false, none⟩] =
      adjust_normalizing_dict
        [(1 * 2, some ⟨fun _ => 0, fun _ => 0⟩),
         ((newArrays [⟨true, some [fun _ => 5, fun _ => 6]⟩,
             ⟨false, some [fun _ => 1, fun _ => 2]⟩,
             (⟨false, none⟩ : RawFile 1)]).length * 2,
          calculate_normalizing_dict
            (processFiles [⟨true, some [fun _ => 5, fun _ => 6]⟩,
               ⟨false, some [fun _ => 1, fun _ => 2]⟩,
               (⟨false, none⟩ : RawFile 1)]).2)] :=
  (c7_checkpoint_merge_frame 1 2 (by norm_num) 1 _ _ (by
    intro arr harr
    simp only [newArrays, List.filterMap_cons, List.filterMap_nil] at harr
    simp at harr
    simp [harr])).2.2

/-- Helper for C8: removing two distinct values from a list, counted
additively. -/
theorem length_filter_pair {α : Type} [DecidableEq α] (a b : α) (hab : a ≠ b)
    (l : List α) :
    (l.filter (fun x => x ∉ [a, b])).length + l.count a + l.count b =
      l.length := by
  induction l with
  | nil => simp
  | cons x xs ih =>
    by_cases hmem : x ∈ [a, b]
    · rw [List.filter_cons,
        if_neg (by simp only [decide_eq_true_eq]; exact not_not_intro hmem),
        List.length_cons]
      rcases List.mem_cons.mp hmem with hxa | hxb
      · subst hxa
        rw [List.count_cons_self, List.count_cons_of_ne (Ne.symm hab)]
        omega
      · rw [List.mem_singleton] at hxb
        subst hxb
        rw [List.count_cons_self, List.count_cons_of_ne hab]
        omega
    · have hxa : x ≠ a := fun h => hmem (by simp [h])
      have hxb : x ≠ b := fun h => hmem (by simp [h])
      rw [List.filter_cons,
        if_pos (by simp only [decide_eq_true_eq]; exact hmem), List.length_cons,
        List.length_cons, List.count_cons_of_ne (Ne.symm hxa),
        List.count_cons_of_ne (Ne.symm hxb)]
      omega

/-- Helper for C8: the kept band indices selected by `remove_bands` over a
band axis of length `len(RAW_BANDS) + 1` (the post-NDVI width) number
exactly `len(BANDS)`. -/
theorem keep_length (DYNAMIC_BANDS STATIC_BANDS : List String)
    (h1 : DYNAMIC_BANDS.count ("B1") = 1) (h10 : DYNAMIC_BANDS.count ("B10") = 1)
    (nb : ℕ) (hnb : nb = (RAW_BANDS DYNAMIC_BANDS STATIC_BANDS).length + 1) :
    ((List.range nb).filter (fun i => i ∉ REMOVED_BANDS.map
        (fun b => (RAW_BANDS DYNAMIC_BANDS STATIC_BANDS).indexOf b))).length =
      (BANDS DYNAMIC_BANDS STATIC_BANDS).length := by
  have hfilter := length_filter_pair ("B1") ("B10") (by decide) DYNAMIC_BANDS
  rw [h1, h10] at hfilter
  have hBANDS : (BANDS DYNAMIC_BANDS STATIC_BANDS).length =
      DYNAMIC_BANDS.length - 2 + STATIC_BANDS.length + 1 := by
    rw [BANDS]
    simp only [List.length_append, List.length_cons, List.length_nil]
    have heq : (DYNAMIC_BANDS.filter (fun x => x ∉ REMOVED_BANDS)).length =
        (DYNAMIC_BANDS.filter (fun x => x ∉ ["B1", "B10"])).length := rfl
    omega
  have hi1mem : "B1" ∈ DYNAMIC_BANDS :=
    List.count_pos_iff.mp (by omega)
  have hi10mem : "B10" ∈ DYNAMIC_BANDS :=
    List.count_pos_iff.mp (by omega)
  have hi1raw : "B1" ∈ RAW_BANDS DYNAMIC_BANDS STATIC_BANDS :=
    List.mem_append_left _ hi1mem
  have hi10raw : "B10" ∈ RAW_BANDS DYNAMIC_BANDS STATIC_BANDS :=
    List.mem_append_left _ hi10mem
  have hi1lt : (RAW_BANDS DYNAMIC_BANDS STATIC_BANDS).indexOf ("B1") <
      (RAW_BANDS DYNAMIC_BANDS STATIC_BANDS).length :=
    List.indexOf_lt_length.mpr hi1raw
  have hi10lt : (RAW_BANDS DYNAMIC_BANDS STATIC_BANDS).indexOf ("B10") <
      (RAW_BANDS DYNAMIC_BANDS STATIC_BANDS).length :=
    List.indexOf_lt_length.mpr hi10raw
  have hne : (RAW_BANDS DYNAMIC_BANDS STATIC_BANDS).indexOf ("B1") ≠
      (RAW_BANDS DYNAMIC_BANDS STATIC_BANDS).indexOf ("B10") := by
    intro heq
    have e1 := List.indexOf_get hi1lt
    have e10 := List.indexOf_get hi10lt
    have hcontr : ("B1" : String) = "B10" := by
      rw [← e1, ← e10]
      exact congrArg _ (Fin.ext heq)
    exact absurd hcontr (by decide)
  have hmapred : REMOVED_BANDS.map
      (fun b => (RAW_BANDS DYNAMIC_BANDS STATIC_BANDS).indexOf b) =
      [(RAW_BANDS DYNAMIC_BANDS STATIC_BANDS).indexOf ("B1"),
       (RAW_BANDS DYNAMIC_BANDS STATIC_BANDS).indexOf ("B10")] := rfl
  rw [hmapred]
  have hkeep := length_filter_pair
    ((RAW_BANDS DYNAMIC_BANDS STATIC_BANDS).indexOf ("B1"))
    ((RAW_BANDS DYNAMIC_BANDS STATIC_BANDS).indexOf ("B10")) hne
    (List.range nb)
  have hc1 := List.count_eq_one_of_mem (List.nodup_range nb)
    (List.mem_range.mpr (by omega) :
      (RAW_BANDS DYNAMIC_BANDS STATIC_BANDS).indexOf ("B1") ∈ List.range nb)
  have hc10 := List.count_eq_one_of_mem (List.nodup_range nb)
    (List.mem_range.mpr (by omega) :
      (RAW_BANDS DYNAMIC_BANDS STATIC_BANDS).indexOf ("B10") ∈ List.range nb)
  rw [hc1, hc10, List.length_range] at hkeep
  rw [hBANDS]
  have hraw : (RAW_BANDS DYNAMIC_BANDS STATIC_BANDS).length =
      DYNAMIC_BANDS.length + STATIC_BANDS.length := List.length_append _ _
  omega

/-- C8: applying NDVI derivation and then band removal — to a rank-2
`[T, B_raw]` training array or to a rank-3 `[N, T, B_raw]` test array —
yields rows whose band axis has length
`len(DYNAMIC_BANDS) - len(REMOVED_BANDS) + len(STATIC_BANDS) + 1`, which
is exactly the length of the catalog's final band order `BANDS`. -/
theorem c8_band_count_invariant (DYNAMIC_BANDS STATIC_BANDS : List String)
    (h1 : DYNAMIC_BANDS.count ("B1") = 1) (h10 : DYNAMIC_BANDS.count ("B10") = 1)
    (iB8 iB4 T : ℕ) (a : List (List ℚ))
    (ha : ∀ row ∈ a, row.length = (RAW_BANDS DYNAMIC_BANDS STATIC_BANDS).length)
    (a3 : List (List (List ℚ)))
    (ha3 : ∀ grid ∈ a3, ∀ row ∈ grid,
      row.length = (RAW_BANDS DYNAMIC_BANDS STATIC_BANDS).length)
    (hT3 : ∀ grid ∈ a3, grid.length = T) :
    (∀ row ∈ remove_bands DYNAMIC_BANDS STATIC_BANDS (calculate_ndvi iB8 iB4 a),
        row.length = (BANDS DYNAMIC_BANDS STATIC_BANDS).length) ∧
    (∀ grid ∈ remove_bands3 DYNAMIC_BANDS STATIC_BANDS
          (calculate_ndvi3 iB8 iB4 a3), ∀ row ∈ grid,
        row.length = (BANDS DYNAMIC_BANDS STATIC_BANDS).length) ∧
    (BANDS DYNAMIC_BANDS STATIC_BANDS).length =
      DYNAMIC_BANDS.length - REMOVED_BANDS.length + STATIC_BANDS.length + 1 := by
  have hBANDS : (BANDS DYNAMIC_BANDS STATIC_BANDS).length =
      DYNAMIC_BANDS.length - 2 + STATIC_BANDS.length + 1 := by
    have hfilter := length_filter_pair ("B1") ("B10") (by decide) DYNAMIC_BANDS
    rw [h1, h10] at hfilter
    rw [BANDS]
    simp only [List.length_append, List.length_cons, List.length_nil]
    have heq : (DYNAMIC_BANDS.filter (fun x => x ∉ REMOVED_BANDS)).length =
        (DYNAMIC_BANDS.filter (fun x => x ∉ ["B1", "B10"])).length := rfl
    omega
  refine ⟨?_, ?_, by rw [hBANDS]; rfl⟩
  · intro row hrow
    match ha' : a with
    | [] => simp [remove_bands, calculate_ndvi] at hrow
    | r0 :: rest =>
      have hr0 : r0.length = (RAW_BANDS DYNAMIC_BANDS STATIC_BANDS).length :=
        ha r0 (List.mem_cons_self _ _)
      simp only [remove_bands] at hrow
      obtain ⟨r, hrmem, hr⟩ := List.mem_map.mp hrow
      rw [← hr, List.length_map]
      exact keep_length DYNAMIC_BANDS STATIC_BANDS h1 h10 _
        (by simp [calculate_ndvi, hr0])
  · intro grid hgrid row hrow
    simp only [remove_bands3] at hgrid
    obtain ⟨g, hgmem, hg⟩ := List.mem_map.mp hgrid
    rw [← hg] at hrow
    obtain ⟨r, hrmem, hr⟩ := List.mem_map.mp hrow
    rw [← hr, List.length_map]
    obtain ⟨g0, hg0mem, hg0⟩ := List.mem_map.mp hgmem
    match ha3' : a3 with
    | [] => exact absurd (ha3' ▸ hg0mem) (List.not_mem_nil g0)
    | ga :: rest =>
      have hTpos : 0 < T := by
        have hglen : g.length = g0.length := by
          rw [← hg0, calculate_ndvi, List.length_map]
        have hg0len : g0.length = T := hT3 g0 (ha3' ▸ hg0mem)
        have : r ∈ g := hrmem
        have hgne : g ≠ [] := List.ne_nil_of_mem this
        have : 0 < g.length := List.length_pos.mpr hgne
        omega
      have hgalen : ga.length = T := hT3 ga (List.mem_cons_self _ _)
      match hga' : ga with
      | [] => simp at hgalen; omega
      | r00 :: gatl =>
        have hr00 : r00.length = (RAW_BANDS DYNAMIC_BANDS STATIC_BANDS).length :=
          ha3 (r00 :: gatl) (List.mem_cons_self _ _) r00
            (List.mem_cons_self _ _)
        exact keep_length DYNAMIC_BANDS STATIC_BANDS h1 h10 _
          (by simp [calculate_ndvi3, calculate_ndvi, hr00])

/-- C8, witness at a concrete catalog, training array and test array. -/
theorem c8_band_count_invariant_witness :
    (∀ row ∈ remove_bands ["B1", "B4", "B8", "B10"] ["slope"]
        (calculate_ndvi 2 1 [[1, 2, 3, 4, 5]]),
      row.length = (BANDS ["B1", "B4", "B8", "B10"] ["slope"]).length) ∧
    (∀ grid ∈ remove_bands3 ["B1", "B4", "B8", "B10"] ["slope"]
        (calculate_ndvi3 2 1 [[[1, 2, 3, 4, 5]]]), ∀ row ∈ grid,
      row.length = (BANDS ["B1", "B4", "B8", "B10"] ["slope"]).length) ∧
    (BANDS ["B1", "B4", "B8", "B10"] ["slope"]).length =
      (["B1", "B4", "B8", "B10"] : List String).length -
        REMOVED_BANDS.length + (["slope"] : List String).length + 1 :=
  c8_band_count_invariant ["B1", "B4", "B8", "B10"] ["slope"] (by decide)
    (by decide) 2 1 1 [[1, 2, 3, 4, 5]] (by
      intro row hrow
      simp at hrow
      rw [hrow]
      rfl)
    [[[1, 2, 3, 4, 5]]] (by
      intro grid hgrid row hrow
      simp at hgrid
      rw [hgrid] at hrow
      simp at hrow
      rw [hrow]
      rfl)
    (by
      intro grid hgrid
      simp at hgrid
      rw [hgrid]
      rfl)

end CropHarvest


